import Mathlib

/-!
Verification development for the npm-to-Go-module proxy (`bep/npmgoproxy`).

The Go sources are shallowly embedded as Lean definitions:

* `internal/npm.go` — registry client, version normalization and sorting,
  tarball download with checksum verification, repacking metadata;
* `npmgop/server.go` — route matching and the four protocol operations.

Go strings are modelled as Lean `String` (Go compares strings byte-wise on
UTF-8, which agrees with `String`'s character-wise lexicographic order).
Byte slices are modelled as `List Nat`.  The external library
`golang.org/x/mod/semver` (used via `semver.Compare` and `semver.Major`)
is embedded function-by-function below; `semver.Compare`'s int result is
modelled as an `Ordering` (negative ↦ `.lt`, zero ↦ `.eq`, positive ↦ `.gt`).
-/

namespace NpmGoProxy

/-! ### Generic comparison infrastructure

`Ordering`-valued comparison functions stand in for Go comparison functions
returning an int sign.  `CmpSymm` and `CmpLETrans` are the two facts we
establish for each comparator in order to reason about sorting.
-/

/-- A comparator answers swapped arguments with the swapped ordering. -/
def CmpSymm {α : Type} (cmp : α → α → Ordering) : Prop :=
  ∀ a b, cmp a b = (cmp b a).swap

/-- The reflexive-transitive (not-greater) part of a comparator is transitive. -/
def CmpLETrans {α : Type} (cmp : α → α → Ordering) : Prop :=
  ∀ a b c, cmp a b ≠ .gt → cmp b c ≠ .gt → cmp a c ≠ .gt

/-- The comparator induced by a linear order. -/
def cmpLin {α : Type} [LinearOrder α] (a b : α) : Ordering :=
  if a < b then .lt else if a = b then .eq else .gt

/-- Lexicographic composition of two comparators on the same arguments. -/
def cmpThen {α : Type} (c₁ c₂ : α → α → Ordering) (a b : α) : Ordering :=
  (c₁ a b).then (c₂ a b)

/-- Lexicographic comparison of lists, element comparator first, a strict
prefix comparing less than the longer list. -/
def cmpLexList {α : Type} (c : α → α → Ordering) : List α → List α → Ordering
  | [], [] => .eq
  | [], _ :: _ => .lt
  | _ :: _, [] => .gt
  | a :: as, b :: bs => (c a b).then (cmpLexList c as bs)

/-- Go's byte-wise string comparison `s < t`, as an executable predicate on
the character lists (for well-formed UTF-8, byte order and character order
agree, and they coincide with `String`'s lexicographic `<`). -/
def strLt (s t : String) : Bool :=
  decide (cmpLexList cmpLin s.data t.data = .lt)

/-! ### Embedding of `golang.org/x/mod/semver`

The version strings handled by the proxy are compared with
`semver.Compare` and dissected with `semver.Major`.  Both start from the
library's `parse` function.  We embed `parse` on `List Char`, keeping the
numeric components as the digit runs the parser read (the parser rejects
leading zeros, so comparing digit runs by length and then lexicographically,
as the library's `compareInt` does, is the numeric order).
-/

/-- Digit test used by the parser (`'0' <= c && c <= '9'`). -/
def isDigitCh (c : Char) : Bool :=
  '0' ≤ c && c ≤ '9'

/-- `isIdentChar` of the library: ASCII letters, digits and `-`. -/
def isIdentCh (c : Char) : Bool :=
  ('A' ≤ c && c ≤ 'Z') || ('a' ≤ c && c ≤ 'z') || ('0' ≤ c && c ≤ '9') || c = '-'

/-- `isNum` of the library: every character is a digit (vacuously true of
the empty run, as in the source). -/
def isNumStr (l : List Char) : Bool :=
  l.all isDigitCh

/-- `isBadNum` of the library: an all-digit run longer than one character
starting with `0`. -/
def isBadNum (l : List Char) : Bool :=
  isNumStr l && decide (1 < l.length) && l.headD 'x' = '0'

/-- `parseInt` of the library: a nonempty digit run without leading zeros,
returned together with the rest of the input. -/
def parseIntCh (v : List Char) : Option (List Char × List Char) :=
  match v with
  | [] => none
  | c :: _ =>
    if isDigitCh c then
      let t := v.takeWhile isDigitCh
      if c = '0' && decide (t.length ≠ 1) then none
      else some (t, v.dropWhile isDigitCh)
    else none

/-- The record produced by the library's `parse`.  Go stores the prerelease
part as the raw `-…` substring and re-splits it inside `comparePrerelease`;
we store the split dot-separated identifier list, which carries the same
information (`[]` meaning "no prerelease").  The build part never takes part
in comparison and is dropped after validation. -/
structure SemParsed where
  major : List Char
  minor : List Char
  patch : List Char
  prerelease : List (List Char)
  deriving DecidableEq

/-- Checks of one prerelease identifier from `parsePrerelease`: nonempty,
made of identifier characters, and not a numeric run with a leading zero. -/
def goodPreSeg (seg : List Char) : Bool :=
  !seg.isEmpty && seg.all isIdentCh && !isBadNum seg

/-- Checks of one build identifier from `parseBuild`: nonempty and made of
identifier characters. -/
def goodBuildSeg (seg : List Char) : Bool :=
  !seg.isEmpty && seg.all isIdentCh

/-- `parsePrerelease` of the library, applied to the part after the `-` and
before any `+`: the dot-separated segments, each validated. -/
def parsePreSegs (body : List Char) : Option (List (List Char)) :=
  let segs := body.splitOn '.'
  if segs.all goodPreSeg then some segs else none

/-- `parseBuild` of the library, applied to the part after the `+` (which
extends to the end of the version string): validation only. -/
def parseBuildOk (body : List Char) : Bool :=
  (body.splitOn '.').all goodBuildSeg

/-- `parse` of the library: `v` + major[.minor[.patch]][-pre][+build],
missing minor/patch defaulting to the digit run `0`. -/
def parseSemver (v : List Char) : Option SemParsed :=
  match v with
  | 'v' :: rest =>
    match parseIntCh rest with
    | none => none
    | some (maj, r₁) =>
      match r₁ with
      | [] => some ⟨maj, ['0'], ['0'], []⟩
      | '.' :: r₂ =>
        match parseIntCh r₂ with
        | none => none
        | some (min, r₃) =>
          match r₃ with
          | [] => some ⟨maj, min, ['0'], []⟩
          | '.' :: r₄ =>
            match parseIntCh r₄ with
            | none => none
            | some (pat, r₅) =>
              let preBody := if r₅.headD ' ' = '-' then some ((r₅.drop 1).takeWhile (· ≠ '+')) else none
              let afterPre := if r₅.headD ' ' = '-' then (r₅.drop 1).dropWhile (· ≠ '+') else r₅
              match preBody with
              | some body =>
                match parsePreSegs body with
                | none => none
                | some segs =>
                  match afterPre with
                  | [] => some ⟨maj, min, pat, segs⟩
                  | '+' :: buildBody =>
                    if parseBuildOk buildBody then some ⟨maj, min, pat, segs⟩ else none
                  | _ => none
              | none =>
                match afterPre with
                | [] => some ⟨maj, min, pat, []⟩
                | '+' :: buildBody =>
                  if parseBuildOk buildBody then some ⟨maj, min, pat, []⟩ else none
                | _ => none
          | _ => none
      | _ => none
  | _ => none

/-- `compareInt` of the library on two digit runs without leading zeros:
equal strings are equal, otherwise shorter means smaller, otherwise
lexicographic. -/
def compareIntStr (x y : List Char) : Ordering :=
  if x = y then .eq
  else if x.length < y.length then .lt
  else if y.length < x.length then .gt
  else if cmpLexList cmpLin x y = .lt then .lt else .gt

/-- One step of `comparePrerelease`: numeric identifiers sort before
alphanumeric ones; two numeric identifiers sort by length then
lexicographically (their numeric order, absent leading zeros); two
alphanumeric identifiers sort lexicographically. -/
def cmpIdent (dx dy : List Char) : Ordering :=
  if dx = dy then .eq
  else if isNumStr dx ≠ isNumStr dy then (if isNumStr dx then .lt else .gt)
  else if isNumStr dx && decide (dx.length ≠ dy.length) then
    (if dx.length < dy.length then .lt else .gt)
  else if cmpLexList cmpLin dx dy = .lt then .lt else .gt

/-- `comparePrerelease` of the library on the split identifier lists: an
absent prerelease (`[]`) sorts after any prerelease; otherwise the
identifier lists compare lexicographically, a strict prefix sorting
first. -/
def cmpPre (x y : List (List Char)) : Ordering :=
  match x, y with
  | [], [] => .eq
  | [], _ :: _ => .gt
  | _ :: _, [] => .lt
  | x₁ :: xs, y₁ :: ys => cmpLexList cmpIdent (x₁ :: xs) (y₁ :: ys)

/-- The comparison of two parsed versions inside `semver.Compare`: major,
minor, patch, then prerelease. -/
def cmpParsed (p q : SemParsed) : Ordering :=
  (compareIntStr p.major q.major).then
    ((compareIntStr p.minor q.minor).then
      ((compareIntStr p.patch q.patch).then (cmpPre p.prerelease q.prerelease)))

/-- The result combination of `semver.Compare`: an invalid version (failed
parse) sorts before a valid one and two invalid versions compare equal. -/
def cmpOptParsed : Option SemParsed → Option SemParsed → Ordering
  | none, none => .eq
  | none, some _ => .lt
  | some _, none => .gt
  | some pv, some pw => cmpParsed pv pw

/-- `semver.Compare`. -/
def semverCompare (v w : String) : Ordering :=
  cmpOptParsed (parseSemver v.data) (parseSemver w.data)

/-- `semver.Major`: `"v"` followed by the major digit run for a valid
version, `""` for an invalid one. -/
def semverMajor (v : String) : String :=
  match parseSemver v.data with
  | none => ""
  | some p => String.mk ('v' :: p.major)

/-- `semver.IsValid`. -/
def semverIsValid (v : String) : Bool :=
  (parseSemver v.data).isSome

/-! ### Data model of `internal/npm.go` -/

/-- `Dist`: the distribution record of one version (`shasum`, `tarball`). -/
structure Dist where
  shaSum : String
  tarball : String
  deriving DecidableEq

/-- `Dependency`: one declared dependency (name, version range). -/
structure Dependency where
  name : String
  versionRange : String
  deriving DecidableEq

/-- `Version`: one package version as decoded from the registry. -/
structure Version where
  name : String
  version : String
  dependencies : List Dependency
  dist : Dist
  deriving DecidableEq

/-- `DistTags`. -/
structure DistTags where
  latest : String
  deriving DecidableEq

/-- `NpmPackage`. -/
structure NpmPackage where
  name : String
  distTags : DistTags
  versions : List Version
  deriving DecidableEq

/-- The zero value of `Version`, as produced by Go for an uninitialized
variable. -/
def zeroVersion : Version :=
  ⟨"", "", [], ⟨"", ""⟩⟩

/-- The zero value of `NpmPackage`. -/
def zeroNpmPackage : NpmPackage :=
  ⟨"", ⟨""⟩, []⟩

/-- `normalizeSemver`: prepend the `v` marker when absent, otherwise return
the string unchanged.  `strings.HasPrefix` is list-prefix on the
characters. -/
def normalizeSemver (s : String) : String :=
  if ("v".data.isPrefixOf s.data) then s else "v" ++ s

/-- Go's `sort.Slice(x, less)` reorders `x` into a permutation in which no
element is `less` than its predecessors; the algorithm is unspecified and
unstable.  We realize that postcondition with insertion sort on the
relation `less b a = false`; for two-element slices this coincides with
what Go's algorithm does, and every property proved below depends only on
the postcondition together with the comparators in play. -/
def goSortSlice {α : Type} (less : α → α → Bool) (l : List α) : List α :=
  List.insertionSort (fun a b => less b a = false) l

/-- The body of the loop in `Versions.UnmarshalJSON`: each decoded version
has its `Version` field normalized before being appended. -/
def normalizeVersionEntry (v : Version) : Version :=
  { v with version := normalizeSemver v.version }

/-- The `less` closure of the sort in `Versions.UnmarshalJSON`:
`semver.Compare` first, the (already normalized) version strings
lexicographically on a tie. -/
def versionLess (vi vj : Version) : Bool :=
  match semverCompare vi.version vj.version with
  | .lt => true
  | .gt => false
  | .eq => strLt vi.version vj.version

/-- `Versions.UnmarshalJSON`, starting from the decoded `map[string]Version`
presented as its (unspecified) iteration order: normalize every entry, then
sort with `versionLess`. -/
def unmarshalVersions (entries : List Version) : List Version :=
  goSortSlice versionLess (entries.map normalizeVersionEntry)

/-- Modelled from the spec sentence "Versions are kept sorted ascending by
normalized version, ties broken by raw-string lexical order": normalized
semver precedence first, and on semantically-equal versions the raw
(pre-normalization) strings lexicographically. -/
def specVersionLess (vi vj : Version) : Bool :=
  match semverCompare (normalizeSemver vi.version) (normalizeSemver vj.version) with
  | .lt => true
  | .gt => false
  | .eq => strLt vi.version vj.version

/-- The version ordering the spec describes: sort the raw entries by
`specVersionLess`, then normalize. -/
def specSortVersions (entries : List Version) : List Version :=
  (goSortSlice specVersionLess entries).map normalizeVersionEntry

/-- `Versions.ByVersion`'s loop, carrying the named return `ver` (Go's
range loop leaves the last examined element in `ver` when no entry
matches). -/
def byVersionAux (last : Version) (vs : List Version) (v : String) : Version × Bool :=
  match vs with
  | [] => (last, false)
  | x :: rest => if x.version = v then (x, true) else byVersionAux x rest v

/-- `Versions.ByVersion`: first entry whose normalized version string
equals `v` exactly. -/
def byVersion (vs : List Version) (v : String) : Version × Bool :=
  byVersionAux zeroVersion vs v

/-- `Dependencies.UnmarshalJSON`, starting from the decoded
`map[string]string` presented as its (unspecified) iteration order: one
`Dependency` per key/value pair, sorted by name. -/
def unmarshalDependencies (entries : List (String × String)) : List Dependency :=
  goSortSlice (fun a b => strLt a.name b.name)
    (entries.map fun kv => ⟨kv.1, kv.2⟩)

/-! ### Package name escaping (`EscapePackage` / `UnEscapePackage`) -/

/-- `strings.ReplaceAll(p, "@", "___")` on the character list: the pattern
is a single character, so every `@` becomes `___`. -/
def escapeChars : List Char → List Char
  | [] => []
  | '@' :: rest => '_' :: '_' :: '_' :: escapeChars rest
  | c :: rest => c :: escapeChars rest

/-- `strings.ReplaceAll(p, "___", "@")` on the character list: leftmost
occurrences of `___` are replaced first and scanning continues after the
replacement, exactly as `strings.Replace` does. -/
def unescapeChars : List Char → List Char
  | '_' :: '_' :: '_' :: rest => '@' :: unescapeChars rest
  | c :: rest => c :: unescapeChars rest
  | [] => []

/-- `EscapePackage`. -/
def EscapePackage (p : String) : String :=
  String.mk (escapeChars p.data)

/-- `UnEscapePackage`. -/
def UnEscapePackage (p : String) : String :=
  String.mk (unescapeChars p.data)

/-- A position at which the escape round-trip breaks: three consecutive
underscores (unescaped without having been escaped), or an underscore
immediately followed by `@` (escaping the `@` merges the underscores into
a run that unescapes at a shifted position). -/
def badHead (l : List Char) : Bool :=
  decide (l.take 3 = ['_', '_', '_']) || decide (l.take 2 = ['_', '@'])

/-- Names on which the escape round-trip is the identity: no suffix starts
with `___` or `_@`. -/
def goodName : List Char → Bool
  | [] => true
  | c :: rest => !badHead (c :: rest) && goodName rest

/-! ### Registry fetches (`FetchPackage`, `FetchPackageVersion`)

The network exchange is modelled by the response the upstream hands back.
`FetchPackage` never inspects `resp.StatusCode`: it decodes whatever body
arrives.  A request for a nonexistent package receives the registry's
not-found JSON error object, whose fields match nothing in `NpmPackage`,
so `json.Decode` fills in nothing and returns no error — the zero value
comes back with `err == nil`.  An empty body makes the decoder return
`io.EOF`, which lines 50–52 of `npm.go` convert to `nil`.
-/

deriving instance DecidableEq for Except

/-- The error values the embedded functions can surface, by kind. -/
inductive GoError where
  | httpError
  | decodeError
  | versionNotFound (version pack : String)
  | badStatus (code : Nat)
  | shasumMismatch
  deriving DecidableEq

/-- The body of an upstream registry response. -/
inductive RegistryBody where
  | emptyBody
  | pkg (p : NpmPackage)
  | notFoundBody
  | malformed
  deriving DecidableEq

/-- An upstream registry exchange: the transport either fails or delivers a
body. -/
inductive RegistryResponse where
  | unreachable
  | resp (b : RegistryBody)
  deriving DecidableEq

/-- What `json.NewDecoder(r.Body).Decode(&npmp)` leaves behind. -/
inductive DecodeOutcome where
  | eof
  | decoded (p : NpmPackage)
  | failed
  deriving DecidableEq

/-- The decode step of `FetchPackage` on each body shape. -/
def decodeNpmBody : RegistryBody → DecodeOutcome
  | .emptyBody => .eof
  | .pkg p => .decoded p
  | .notFoundBody => .decoded zeroNpmPackage
  | .malformed => .failed

/-- `FetchPackage`, as a function of the upstream response. -/
def FetchPackage (r : RegistryResponse) : Except GoError NpmPackage :=
  match r with
  | .unreachable => .error .httpError
  | .resp b =>
    match decodeNpmBody b with
    | .eof => .ok zeroNpmPackage
    | .decoded p => .ok p
    | .failed => .error .decodeError

/-- `FetchPackageVersion`: compose `FetchPackage` with `ByVersion`; a miss
becomes the formatted version-not-found error. -/
def FetchPackageVersion (r : RegistryResponse) (pack version : String) :
    Except GoError Version :=
  match FetchPackage r with
  | .error e => .error e
  | .ok npmpkg =>
    let (npmv, found) := byVersion npmpkg.versions version
    if found then .ok npmv else .error (.versionNotFound version pack)

/-- The registry's response for a named package when the upstream is
reachable: the package's metadata when it exists, the 404 error body when
it does not. -/
def registryFor (upstream : List (String × NpmPackage)) (name : String) :
    RegistryResponse :=
  match upstream.lookup name with
  | some p => .resp (.pkg p)
  | none => .resp .notFoundBody

/-- `FetchPackageVersion` against a reachable upstream registry holding the
given packages. -/
def fetchPackageVersionFrom (upstream : List (String × NpmPackage))
    (pack version : String) : Except GoError Version :=
  FetchPackageVersion (registryFor upstream pack) pack version

/-! ### Tarball download (`downloadTarball`)

The hex-encoded SHA-1 digest of `crypto/sha1` is passed in as a function
parameter: every claim about `downloadTarball` depends only on comparing
that digest with the declared checksum, not on the digest's internals.
The second component of the result is the content of the destination file
after the call returns (`none` would mean the file is absent): the file is
created first (`os.Create`), left empty if the GET fails or returns a
non-200 status, and keeps the streamed bytes otherwise — no branch of the
function removes it.
-/

/-- The upstream's answer to `http.Get(dist.Tarball)`. -/
inductive TarballResponse where
  | netFail
  | resp (status : Nat) (body : List Nat)
  deriving DecidableEq

/-- `downloadTarball`: result, paired with the destination file's final
content. -/
def downloadTarball (hash : List Nat → String) (dist : Dist)
    (r : TarballResponse) : Except GoError Unit × Option (List Nat) :=
  match r with
  | .netFail => (.error .httpError, some [])
  | .resp status body =>
    if status ≠ 200 then (.error (.badStatus status), some [])
    else if hash body ≠ dist.shaSum then (.error .shasumMismatch, some body)
    else (.ok (), some body)

/-! ### Repacking (`repackTarballAsZip`, `CreateZipFromVersion`, `Zip`) -/

/-- `ModPathBase` of `internal/npm.go`. -/
def ModPathBase : String :=
  "gohugo.io/npmjs"

/-- The `/`-separated elements of a path, exactly `strings.Split(p, "/")`:
consecutive, leading and trailing slashes produce empty elements. -/
def splitSlash : List Char → List (List Char)
  | [] => [[]]
  | '/' :: rest => [] :: splitSlash rest
  | c :: rest =>
    match splitSlash rest with
    | s :: ss => (c :: s) :: ss
    | [] => [[c]]

/-- Joining path elements back with `/`. -/
def joinSlash : List (List Char) → List Char
  | [] => []
  | s :: rest => s ++ (if rest.isEmpty then [] else '/' :: joinSlash rest)

/-- A path element that `path.Clean` passes through untouched: nonempty
and neither `.` nor `..`. -/
def goodSeg (seg : List Char) : Bool :=
  decide (seg ≠ [] ∧ seg ≠ ['.'] ∧ seg ≠ ['.', '.'])

/-- The element scan of `path.Clean`, with the output kept as a stack
(innermost element first).  Empty elements (multiple slashes) and `.` are
dropped; `..` removes the preceding non-`..` element when there is one, is
kept at the start of an unrooted path (`..` elements can pile up only
there, so a `..` on top of the stack means the whole stack is the leading
`..` run, which is Go's `out.w <= dotdot` condition), and is dropped at
the root of a rooted path. -/
def cleanElems (rooted : Bool) (stack : List (List Char)) :
    List (List Char) → List (List Char)
  | [] => stack
  | seg :: rest =>
    if seg = [] ∨ seg = ['.'] then cleanElems rooted stack rest
    else if seg = ['.', '.'] then
      match stack with
      | [] =>
        if rooted then cleanElems rooted [] rest
        else cleanElems rooted [['.', '.']] rest
      | top :: stack' =>
        if top = ['.', '.'] then cleanElems rooted (seg :: stack) rest
        else cleanElems rooted stack' rest
    else cleanElems rooted (seg :: stack) rest

/-- `path.Clean` of Go's `path` package, by its documented transformation:
replace runs of slashes by one slash, drop `.` elements, drop each inner
`..` together with the non-`..` element before it, drop `..` elements at
the root of a rooted path, and return `.` when everything vanishes.  The
Go implementation scans bytes with a lazily-copied buffer; this embedding
processes the `/`-separated elements with an explicit stack, realizing
exactly those rules. -/
def pathClean (p : String) : String :=
  if p = "" then "."
  else
    let rooted := decide (p.data.headD ' ' = '/')
    let segs := (cleanElems rooted [] (splitSlash p.data)).reverse
    let out := if rooted then '/' :: joinSlash segs else joinSlash segs
    if out.isEmpty then "." else String.mk out

/-- The body of `path.Join`'s loop: an element is skipped only while the
buffer is still empty and the element is itself empty; otherwise a `/` is
appended first whenever the buffer is nonempty. -/
def joinBufStep (buf : List Char) (e : String) : List Char :=
  if buf.isEmpty && e = "" then buf
  else (if buf.isEmpty then [] else buf ++ ['/']) ++ e.data

/-- `path.Join`: returns `""` when every element is empty (Go's size-zero
early return, equivalently an empty buffer), and otherwise `path.Clean`
of the joined buffer. -/
def pathJoin (elems : List String) : String :=
  let buf := elems.foldl joinBufStep []
  if buf.isEmpty then "" else pathClean (String.mk buf)

/-- The major-version suffix computed in `repackTarballAsZip` (lines
246–249 of `npm.go`): `semver.Major`, blanked out for `"v1"`. -/
def repackMajor (version : String) : String :=
  let major := semverMajor version
  if major = "v1" then "" else major

/-- The module path handed to `zip.CreateFromDir`:
`path.Join(ModPathBase, EscapePackage(version.Name), major)`. -/
def repackModulePath (version : Version) : String :=
  pathJoin [ModPathBase, EscapePackage version.name, repackMajor version.version]

/-- Observable outcome of one `Zip` request: whether `http.ServeContent`
ran, whether the handler failed with a 500, and whether the staging
temporary directory created by `CreateZipFromVersion` still exists after
the handler returns. -/
structure ZipOutcome where
  served : Bool
  failed500 : Bool
  tempDirLeft : Bool
  deriving DecidableEq

/-- The `Zip` handler of `server.go` (lines 209–230) composed with
`CreateZipFromVersion` (lines 70–80 of `npm.go`).  `fetch` is the outcome
of `FetchPackageVersion`; `repackOk` abstracts whether untarring and
`zip.CreateFromDir` succeed.  `ioutil.TempDir` creates the staging
directory before the download; `CreateZipFromVersion` returns early on a
download or repack error without removing it, and the handler's deferred
`os.RemoveAll(filepath.Dir(f.Name()))` is registered only after
`CreateZipFromVersion` has succeeded. -/
def zipHandler (fetch : Except GoError Version) (hash : List Nat → String)
    (tarResp : TarballResponse) (repackOk : Bool) : ZipOutcome :=
  match fetch with
  | .error _ => ⟨false, true, false⟩
  | .ok npmv =>
    match (downloadTarball hash npmv.dist tarResp).1 with
    | .error _ => ⟨false, true, true⟩
    | .ok _ =>
      if repackOk then ⟨true, false, false⟩ else ⟨false, true, true⟩

/-! ### Route matching (`server.go` lines 24–29 and 152–206)

The four patterns are anchored regular expressions over the request path:

* list: `^/(?P<module>.*)/@v/list$`
* info: `^/(?P<module>.*)/@v/(?P<version>.*).info$`
* mod:  `^/(?P<module>.*)/@v/(?P<version>.*).mod$`
* zip:  `^/(?P<module>.*)/@v/(?P<version>.*).zip$`

`.*` is greedy and `.` matches any character, so a match decomposes the
path as `/` + module + `/@v/` + tail, with the module group as long as the
rest still matches (the backtracking picks the rightmost viable `/@v/`),
and for the versioned patterns the tail is version + one arbitrary
character + the literal suffix, the version group again greedy.
`matchAfterSlash` implements exactly that search: it prefers extending the
module group (recursing first) and only then tries to read `/@v/` at the
current position.
-/

/-- Tail matcher of the `list` pattern: the literal `list`, no version. -/
def tailExact (lit : List Char) (t : List Char) : Option (List Char) :=
  if t = lit then some [] else none

/-- Tail matcher of the versioned patterns: `(?P<version>.*)` + any one
character + the literal suffix. -/
def tailDotSuffix (suffix : List Char) (t : List Char) : Option (List Char) :=
  if suffix.length + 1 ≤ t.length ∧ t.drop (t.length - suffix.length) = suffix then
    some (t.take (t.length - suffix.length - 1))
  else none

/-- Greedy decomposition of everything after the leading `/` into
module ++ `/@v/` ++ tail, longest module first. -/
def matchAfterSlash (tailFn : List Char → Option (List Char)) :
    List Char → Option (List Char × List Char)
  | [] => none
  | c :: r =>
    match matchAfterSlash tailFn r with
    | some (a, v) => some (c :: a, v)
    | none =>
      if (c :: r).take 4 = ['/', '@', 'v', '/'] then
        match tailFn ((c :: r).drop 4) with
        | some v => some ([], v)
        | none => none
      else none

/-- Application of one route pattern to a request path: the path must start
with `/`, and the rest must decompose as above.  Returns the module and
version submatches. -/
def routePattern (tailFn : List Char → Option (List Char)) (path : String) :
    Option (String × String) :=
  match path.data with
  | '/' :: rest =>
    match matchAfterSlash tailFn rest with
    | some (a, v) => some (String.mk a, String.mk v)
    | none => none
  | _ => none

/-- The four route identities, in the order `ServeHTTP` tries them. -/
inductive RouteId where
  | listRoute
  | infoRoute
  | modRoute
  | zipRoute
  deriving DecidableEq

/-- `npmjsPrefix` of `server.go`. -/
def npmjsPrefix : String :=
  ModPathBase ++ "/"

/-- The route-selection part of `ServeHTTP`: reject paths outside the
proxy's base, then try the four patterns in order and report the first
match with its module and version submatches. -/
def serveRoute (path : String) : Option (RouteId × String × String) :=
  if ("/" ++ npmjsPrefix).data.isPrefixOf path.data then
    match routePattern (tailExact "list".data) path with
    | some (m, v) => some (.listRoute, m, v)
    | none =>
      match routePattern (tailDotSuffix "info".data) path with
      | some (m, v) => some (.infoRoute, m, v)
      | none =>
        match routePattern (tailDotSuffix "mod".data) path with
        | some (m, v) => some (.modRoute, m, v)
        | none =>
          match routePattern (tailDotSuffix "zip".data) path with
          | some (m, v) => some (.zipRoute, m, v)
          | none => none
  else none

/-! ### Auxiliary comparison views

These definitions restate the branchy comparison functions above as
lexicographic compositions, which is the form in which their order
properties are proved.
-/

/-- Numeric identifiers rank before alphanumeric ones. -/
def identRank (l : List Char) : Nat :=
  if isNumStr l then 0 else 1

/-- Length is significant only between two numeric identifiers. -/
def identLenKey (l : List Char) : Nat :=
  if isNumStr l then l.length else 0

/-- The comparator realized by the sort of `Versions.UnmarshalJSON`:
`semver.Compare` first, the version strings on a tie.  `versionLess vi vj`
is `cmpVer vi vj = .lt`. -/
def cmpVer (vi vj : Version) : Ordering :=
  (semverCompare vi.version vj.version).then
    (cmpLexList cmpLin vi.version.data vj.version.data)

/-! ## Order properties of the comparators -/

theorem cmpLin_self {α : Type} [LinearOrder α] (a : α) : cmpLin a a = .eq := by
  simp [cmpLin]

theorem cmpLin_eq_iff {α : Type} [LinearOrder α] {a b : α} : cmpLin a b = .eq ↔ a = b := by
  unfold cmpLin
  rcases lt_trichotomy a b with h | h | h
  · simp [h, ne_of_lt h]
  · simp [h]
  · simp [lt_asymm h, ne_of_gt h]

theorem cmpLin_lt_iff {α : Type} [LinearOrder α] {a b : α} : cmpLin a b = .lt ↔ a < b := by
  unfold cmpLin
  rcases lt_trichotomy a b with h | h | h
  · simp [h]
  · simp [h, lt_irrefl]
  · simp [lt_asymm h, ne_of_gt h, h]

theorem cmpLin_symm {α : Type} [LinearOrder α] : CmpSymm (cmpLin (α := α)) := by
  intro a b
  unfold cmpLin
  rcases lt_trichotomy a b with h | h | h
  · simp [h, lt_asymm h, ne_of_gt h, Ordering.swap]
  · simp [h, Ordering.swap]
  · simp [h, lt_asymm h, ne_of_gt h, Ordering.swap]

theorem cmpLin_letrans {α : Type} [LinearOrder α] : CmpLETrans (cmpLin (α := α)) := by
  intro a b c hab hbc
  unfold cmpLin at *
  by_cases h₁ : a < b
  · by_cases h₂ : b < c
    · simp [lt_trans h₁ h₂]
    · by_cases h₃ : b = c
      · simp [h₃ ▸ h₁]
      · simp [h₂, h₃] at hbc
  · by_cases h₃ : a = b
    · subst h₃
      exact hbc
    · simp [h₁, h₃] at hab

theorem cmpSymm_eq_iff {α : Type} {cmp : α → α → Ordering} (hs : CmpSymm cmp) {a b : α} :
    cmp a b = .eq ↔ cmp b a = .eq := by
  rw [hs a b]
  cases cmp b a <;> simp [Ordering.swap]

theorem cmpSymm_lt_iff {α : Type} {cmp : α → α → Ordering} (hs : CmpSymm cmp) {a b : α} :
    cmp a b = .lt ↔ cmp b a = .gt := by
  rw [hs a b]
  cases cmp b a <;> simp [Ordering.swap]

theorem cmp_ne_gt {α : Type} {cmp : α → α → Ordering} {a b : α} :
    cmp a b ≠ .gt ↔ cmp a b = .lt ∨ cmp a b = .eq := by
  cases h : cmp a b <;> simp

theorem cmp_total {α : Type} {cmp : α → α → Ordering} (hs : CmpSymm cmp) (a b : α) :
    cmp a b ≠ .gt ∨ cmp b a ≠ .gt := by
  cases h : cmp a b with
  | lt => simp [h]
  | eq => simp [h]
  | gt =>
    right
    rw [← cmpSymm_lt_iff hs] at h
    simp [h]

theorem cmp_eq_trans {α : Type} {cmp : α → α → Ordering} (hs : CmpSymm cmp)
    (ht : CmpLETrans cmp) {a b c : α} (h₁ : cmp a b = .eq) (h₂ : cmp b c = .eq) :
    cmp a c = .eq := by
  have hac : cmp a c ≠ .gt := ht a b c (by simp [h₁]) (by simp [h₂])
  have hca : cmp c a ≠ .gt :=
    ht c b a (by simp [(cmpSymm_eq_iff hs).mp h₂]) (by simp [(cmpSymm_eq_iff hs).mp h₁])
  rcases cmp_ne_gt.mp hac with h | h
  · rw [cmpSymm_lt_iff hs] at h
    exact absurd h hca
  · exact h

theorem cmp_lt_trans {α : Type} {cmp : α → α → Ordering} (hs : CmpSymm cmp)
    (ht : CmpLETrans cmp) {a b c : α} (h₁ : cmp a b = .lt) (h₂ : cmp b c = .lt) :
    cmp a c = .lt := by
  have hac : cmp a c ≠ .gt := ht a b c (by simp [h₁]) (by simp [h₂])
  rcases cmp_ne_gt.mp hac with h | h
  · exact h
  · have hca : cmp c a = .eq := (cmpSymm_eq_iff hs).mp h
    have : cmp c b ≠ .gt := ht c a b (by simp [hca]) (by simp [h₁])
    rw [cmpSymm_lt_iff hs] at h₂
    exact absurd h₂ this

theorem cmp_lt_of_lt_of_eq {α : Type} {cmp : α → α → Ordering} (hs : CmpSymm cmp)
    (ht : CmpLETrans cmp) {a b c : α} (h₁ : cmp a b = .lt) (h₂ : cmp b c = .eq) :
    cmp a c = .lt := by
  have hac : cmp a c ≠ .gt := ht a b c (by simp [h₁]) (by simp [h₂])
  rcases cmp_ne_gt.mp hac with h | h
  · exact h
  · have hcb : cmp c b = .eq := (cmpSymm_eq_iff hs).mp h₂
    have : cmp a b = .eq := cmp_eq_trans hs ht h hcb
    rw [this] at h₁
    exact absurd h₁ (by simp)

theorem cmp_lt_of_eq_of_lt {α : Type} {cmp : α → α → Ordering} (hs : CmpSymm cmp)
    (ht : CmpLETrans cmp) {a b c : α} (h₁ : cmp a b = .eq) (h₂ : cmp b c = .lt) :
    cmp a c = .lt := by
  have hac : cmp a c ≠ .gt := ht a b c (by simp [h₁]) (by simp [h₂])
  rcases cmp_ne_gt.mp hac with h | h
  · exact h
  · have hba : cmp b a = .eq := (cmpSymm_eq_iff hs).mp h₁
    have : cmp b c = .eq := cmp_eq_trans hs ht hba h
    rw [this] at h₂
    exact absurd h₂ (by simp)

theorem then_eq_iff {o₁ o₂ : Ordering} : o₁.then o₂ = .eq ↔ o₁ = .eq ∧ o₂ = .eq := by
  cases o₁ <;> simp [Ordering.then]

theorem then_ne_gt {o₁ o₂ : Ordering} :
    o₁.then o₂ ≠ .gt ↔ o₁ = .lt ∨ (o₁ = .eq ∧ o₂ ≠ .gt) := by
  cases o₁ <;> simp [Ordering.then]

theorem then_eq_lt {o₁ o₂ : Ordering} :
    o₁.then o₂ = .lt ↔ o₁ = .lt ∨ (o₁ = .eq ∧ o₂ = .lt) := by
  cases o₁ <;> simp [Ordering.then]

theorem then_swap {o₁ o₂ : Ordering} : (o₁.then o₂).swap = o₁.swap.then o₂.swap := by
  cases o₁ <;> cases o₂ <;> simp [Ordering.then, Ordering.swap]

theorem cmpThen_symm {α : Type} {c₁ c₂ : α → α → Ordering} (h₁ : CmpSymm c₁)
    (h₂ : CmpSymm c₂) : CmpSymm (cmpThen c₁ c₂) := by
  intro a b
  rw [cmpThen, cmpThen, h₁ a b, h₂ a b, then_swap]

theorem cmpThen_letrans {α : Type} {c₁ c₂ : α → α → Ordering} (hs₁ : CmpSymm c₁)
    (ht₁ : CmpLETrans c₁) (hs₂ : CmpSymm c₂) (ht₂ : CmpLETrans c₂) :
    CmpLETrans (cmpThen c₁ c₂) := by
  intro a b c hab hbc
  rw [cmpThen, then_ne_gt] at *
  rcases hab with hab | ⟨hab, hab₂⟩
  · rcases hbc with hbc | ⟨hbc, _⟩
    · exact Or.inl (cmp_lt_trans hs₁ ht₁ hab hbc)
    · exact Or.inl (cmp_lt_of_lt_of_eq hs₁ ht₁ hab hbc)
  · rcases hbc with hbc | ⟨hbc, hbc₂⟩
    · exact Or.inl (cmp_lt_of_eq_of_lt hs₁ ht₁ hab hbc)
    · exact Or.inr ⟨cmp_eq_trans hs₁ ht₁ hab hbc, ht₂ a b c hab₂ hbc₂⟩

theorem cmpLexList_symm {α : Type} {c : α → α → Ordering} (hc : CmpSymm c) :
    CmpSymm (cmpLexList c) := by
  intro l₁
  induction l₁ with
  | nil => intro l₂; cases l₂ <;> simp [cmpLexList, Ordering.swap]
  | cons a as ih =>
    intro l₂
    cases l₂ with
    | nil => simp [cmpLexList, Ordering.swap]
    | cons b bs => rw [cmpLexList, cmpLexList, hc a b, ih bs, then_swap]

theorem cmpLexList_eq_iff {α : Type} {c : α → α → Ordering}
    (hc : ∀ a b, c a b = .eq ↔ a = b) {l₁ l₂ : List α} :
    cmpLexList c l₁ l₂ = .eq ↔ l₁ = l₂ := by
  induction l₁ generalizing l₂ with
  | nil => cases l₂ <;> simp [cmpLexList]
  | cons a as ih =>
    cases l₂ with
    | nil => simp [cmpLexList]
    | cons b bs => rw [cmpLexList, then_eq_iff, hc a b, ih]; simp

theorem cmpLexList_letrans {α : Type} {c : α → α → Ordering} (hs : CmpSymm c)
    (ht : CmpLETrans c) : CmpLETrans (cmpLexList c) := by
  intro l₁
  induction l₁ with
  | nil =>
    intro l₂ l₃ _ _
    cases l₃ <;> simp [cmpLexList]
  | cons a as ih =>
    intro l₂ l₃ h₁₂ h₂₃
    cases l₂ with
    | nil => simp [cmpLexList] at h₁₂
    | cons b bs =>
      cases l₃ with
      | nil => simp [cmpLexList] at h₂₃
      | cons d ds =>
        rw [cmpLexList, then_ne_gt] at *
        rcases h₁₂ with hab | ⟨hab, hab₂⟩
        · rcases h₂₃ with hbd | ⟨hbd, _⟩
          · exact Or.inl (cmp_lt_trans hs ht hab hbd)
          · exact Or.inl (cmp_lt_of_lt_of_eq hs ht hab hbd)
        · rcases h₂₃ with hbd | ⟨hbd, hbd₂⟩
          · exact Or.inl (cmp_lt_of_eq_of_lt hs ht hab hbd)
          · exact Or.inr ⟨cmp_eq_trans hs ht hab hbd, ih bs ds hab₂ hbd₂⟩

theorem cmpOn_symm {α β : Type} {c : β → β → Ordering} (hc : CmpSymm c) (f : α → β) :
    CmpSymm (fun a b => c (f a) (f b)) :=
  fun a b => hc (f a) (f b)

theorem cmpOn_letrans {α β : Type} {c : β → β → Ordering} (hc : CmpLETrans c) (f : α → β) :
    CmpLETrans (fun a b => c (f a) (f b)) :=
  fun a b c' => hc (f a) (f b) (f c')

/-! ### Order properties of the semver comparators -/

theorem compareIntStr_view (x y : List Char) :
    compareIntStr x y = (cmpLin x.length y.length).then (cmpLexList cmpLin x y) := by
  unfold compareIntStr
  by_cases hxy : x = y
  · subst hxy
    simp [cmpLin_self, (cmpLexList_eq_iff fun _ _ => cmpLin_eq_iff).mpr rfl, Ordering.then]
  · rw [if_neg hxy]
    rcases lt_trichotomy x.length y.length with h | h | h
    · simp [h, cmpLin_lt_iff.mpr h, Ordering.then]
    · rw [if_neg (by omega), if_neg (by omega)]
      have hlex : cmpLexList cmpLin x y ≠ .eq := fun hh =>
        hxy ((cmpLexList_eq_iff fun _ _ => cmpLin_eq_iff).mp hh)
      rw [cmpLin_eq_iff.mpr h]
      cases hv : cmpLexList cmpLin x y <;> simp_all [Ordering.then]
    · rw [if_neg (by omega), if_pos h, cmpLin, if_neg (by omega), if_neg (by omega)]
      rfl

theorem compareIntStr_symm : CmpSymm compareIntStr := by
  have h :=
    cmpThen_symm (cmpOn_symm (cmpLin_symm (α := Nat)) List.length)
      (cmpLexList_symm (cmpLin_symm (α := Char)))
  intro a b
  rw [compareIntStr_view, compareIntStr_view]
  exact h a b

theorem compareIntStr_letrans : CmpLETrans compareIntStr := by
  have h :=
    cmpThen_letrans (cmpOn_symm (cmpLin_symm (α := Nat)) List.length)
      (cmpOn_letrans (cmpLin_letrans (α := Nat)) List.length)
      (cmpLexList_symm (cmpLin_symm (α := Char)))
      (cmpLexList_letrans (cmpLin_symm (α := Char)) (cmpLin_letrans (α := Char)))
  intro a b c hab hbc
  rw [compareIntStr_view] at hab hbc ⊢
  exact h a b c hab hbc

theorem cmpIdent_view (dx dy : List Char) :
    cmpIdent dx dy =
      (cmpLin (identRank dx) (identRank dy)).then
        ((cmpLin (identLenKey dx) (identLenKey dy)).then (cmpLexList cmpLin dx dy)) := by
  unfold cmpIdent
  by_cases hxy : dx = dy
  · subst hxy
    simp [cmpLin_self, (cmpLexList_eq_iff fun _ _ => cmpLin_eq_iff).mpr rfl, Ordering.then]
  · rw [if_neg hxy]
    have hlex : cmpLexList cmpLin dx dy ≠ .eq := fun hh =>
      hxy ((cmpLexList_eq_iff fun _ _ => cmpLin_eq_iff).mp hh)
    by_cases hnum : isNumStr dx = isNumStr dy
    · rw [if_neg (by simp [hnum])]
      have hrank : cmpLin (identRank dx) (identRank dy) = .eq := by
        rw [cmpLin_eq_iff, identRank, identRank, hnum]
      rw [hrank]
      by_cases hn : isNumStr dy = true
      · have hkx : identLenKey dx = dx.length := by rw [identLenKey, if_pos (hnum.trans hn)]
        have hky : identLenKey dy = dy.length := by rw [identLenKey, if_pos hn]
        by_cases hlen : dx.length = dy.length
        · rw [if_neg (by simp [hnum, hn, hlen])]
          have hkey : cmpLin (identLenKey dx) (identLenKey dy) = .eq := by
            rw [cmpLin_eq_iff, hkx, hky, hlen]
          rw [hkey]
          cases hv : cmpLexList cmpLin dx dy <;> simp_all [Ordering.then]
        · rw [if_pos (by simp [hnum, hn, hlen]), hkx, hky]
          rcases lt_trichotomy dx.length dy.length with h | h | h
          · simp [h, cmpLin_lt_iff.mpr h, Ordering.then]
          · exact absurd h hlen
          · rw [if_neg (by omega), cmpLin, if_neg (by omega), if_neg (by omega)]
            rfl
      · have hn' : isNumStr dy = false := by simpa using hn
        have hkey : cmpLin (identLenKey dx) (identLenKey dy) = .eq := by
          rw [cmpLin_eq_iff, identLenKey, identLenKey, hnum, hn']
          simp
        rw [if_neg (by simp [hnum, hn']), hkey]
        cases hv : cmpLexList cmpLin dx dy <;> simp_all [Ordering.then]
    · rw [if_pos (by simpa using hnum)]
      by_cases hx : isNumStr dx = true
      · have hy : isNumStr dy = false := by
          cases hyv : isNumStr dy
          · rfl
          · exact absurd (hx.trans hyv.symm) hnum
        have hrank : cmpLin (identRank dx) (identRank dy) = .lt := by
          rw [cmpLin_lt_iff, identRank, identRank, if_pos hx, if_neg (by simp [hy])]
          omega
        rw [if_pos hx, hrank]
        rfl
      · have hx' : isNumStr dx = false := by simpa using hx
        have hy : isNumStr dy = true := by
          cases hyv : isNumStr dy
          · exact absurd (hx'.trans hyv.symm) hnum
          · rfl
        have hrank : cmpLin (identRank dx) (identRank dy) = .gt := by
          rw [identRank, identRank, if_neg (by simp [hx']), if_pos hy, cmpLin,
            if_neg (by omega), if_neg (by omega)]
        rw [if_neg (by simp [hx']), hrank]
        rfl

theorem cmpIdent_symm : CmpSymm cmpIdent := by
  have h :=
    cmpThen_symm (cmpOn_symm (cmpLin_symm (α := Nat)) identRank)
      (cmpThen_symm (cmpOn_symm (cmpLin_symm (α := Nat)) identLenKey)
        (cmpLexList_symm (cmpLin_symm (α := Char))))
  intro a b
  rw [cmpIdent_view, cmpIdent_view]
  exact h a b

theorem cmpIdent_letrans : CmpLETrans cmpIdent := by
  have h :=
    cmpThen_letrans (cmpOn_symm (cmpLin_symm (α := Nat)) identRank)
      (cmpOn_letrans (cmpLin_letrans (α := Nat)) identRank)
      (cmpThen_symm (cmpOn_symm (cmpLin_symm (α := Nat)) identLenKey)
        (cmpLexList_symm (cmpLin_symm (α := Char))))
      (cmpThen_letrans (cmpOn_symm (cmpLin_symm (α := Nat)) identLenKey)
        (cmpOn_letrans (cmpLin_letrans (α := Nat)) identLenKey)
        (cmpLexList_symm (cmpLin_symm (α := Char)))
        (cmpLexList_letrans (cmpLin_symm (α := Char)) (cmpLin_letrans (α := Char))))
  intro a b c hab hbc
  rw [cmpIdent_view] at hab hbc ⊢
  exact h a b c hab hbc

theorem cmpPre_symm : CmpSymm cmpPre := by
  intro x y
  cases x with
  | nil => cases y <;> simp [cmpPre, Ordering.swap]
  | cons a as =>
    cases y with
    | nil => simp [cmpPre, Ordering.swap]
    | cons b bs => exact cmpLexList_symm cmpIdent_symm (a :: as) (b :: bs)

theorem cmpPre_letrans : CmpLETrans cmpPre := by
  intro x y z hxy hyz
  cases x with
  | nil =>
    cases y with
    | nil =>
      cases z with
      | nil => simp [cmpPre]
      | cons c cs => simp [cmpPre] at hyz
    | cons b bs => simp [cmpPre] at hxy
  | cons a as =>
    cases z with
    | nil => simp [cmpPre]
    | cons c cs =>
      cases y with
      | nil => simp [cmpPre] at hyz
      | cons b bs =>
        exact cmpLexList_letrans cmpIdent_symm cmpIdent_letrans (a :: as) (b :: bs) (c :: cs)
          hxy hyz

theorem cmpParsed_symm : CmpSymm cmpParsed := by
  intro p q
  exact
    cmpThen_symm (cmpOn_symm compareIntStr_symm SemParsed.major)
      (cmpThen_symm (cmpOn_symm compareIntStr_symm SemParsed.minor)
        (cmpThen_symm (cmpOn_symm compareIntStr_symm SemParsed.patch)
          (cmpOn_symm cmpPre_symm SemParsed.prerelease))) p q

theorem cmpParsed_letrans : CmpLETrans cmpParsed := by
  intro p q r
  exact
    cmpThen_letrans (cmpOn_symm compareIntStr_symm SemParsed.major)
      (cmpOn_letrans compareIntStr_letrans SemParsed.major)
      (cmpThen_symm (cmpOn_symm compareIntStr_symm SemParsed.minor)
        (cmpThen_symm (cmpOn_symm compareIntStr_symm SemParsed.patch)
          (cmpOn_symm cmpPre_symm SemParsed.prerelease)))
      (cmpThen_letrans (cmpOn_symm compareIntStr_symm SemParsed.minor)
        (cmpOn_letrans compareIntStr_letrans SemParsed.minor)
        (cmpThen_symm (cmpOn_symm compareIntStr_symm SemParsed.patch)
          (cmpOn_symm cmpPre_symm SemParsed.prerelease))
        (cmpThen_letrans (cmpOn_symm compareIntStr_symm SemParsed.patch)
          (cmpOn_letrans compareIntStr_letrans SemParsed.patch)
          (cmpOn_symm cmpPre_symm SemParsed.prerelease)
          (cmpOn_letrans cmpPre_letrans SemParsed.prerelease))) p q r

theorem cmpOptParsed_symm : CmpSymm cmpOptParsed := by
  intro a b
  cases a <;> cases b
  · rfl
  · rfl
  · rfl
  · exact cmpParsed_symm _ _

theorem cmpOptParsed_letrans : CmpLETrans cmpOptParsed := by
  intro a b c hab hbc
  cases a <;> cases b <;> cases c <;> simp_all [cmpOptParsed]
  exact cmpParsed_letrans _ _ _ hab hbc

theorem semverCompare_symm : CmpSymm semverCompare := by
  intro v w
  exact cmpOptParsed_symm _ _

theorem semverCompare_letrans : CmpLETrans semverCompare := by
  intro u v w huv hvw
  exact cmpOptParsed_letrans _ _ _ huv hvw

/-! ### Lexicographic character comparison and `String` order -/

theorem cmpChars_lt_iff (l₁ l₂ : List Char) :
    cmpLexList cmpLin l₁ l₂ = .lt ↔ List.Lex (· < ·) l₁ l₂ := by
  induction l₁ generalizing l₂ with
  | nil =>
    cases l₂ with
    | nil =>
      constructor
      · intro h
        exact absurd h (by simp [cmpLexList])
      · intro h
        nomatch h
    | cons b bs =>
      constructor
      · intro _
        exact List.Lex.nil
      · intro _
        rfl
  | cons a as ih =>
    cases l₂ with
    | nil =>
      constructor
      · intro h
        exact absurd h (by simp [cmpLexList])
      · intro h
        nomatch h
    | cons b bs =>
      rw [cmpLexList, then_eq_lt]
      constructor
      · rintro (h | ⟨h1, h2⟩)
        · exact List.Lex.rel (cmpLin_lt_iff.mp h)
        · have hab : a = b := cmpLin_eq_iff.mp h1
          subst hab
          exact List.Lex.cons ((ih bs).mp h2)
      · intro h
        cases h with
        | rel hab => exact Or.inl (cmpLin_lt_iff.mpr hab)
        | cons h3 => exact Or.inr ⟨cmpLin_self a, (ih bs).mpr h3⟩

theorem strLt_iff_lt (s t : String) : strLt s t = true ↔ s < t := by
  rw [strLt, decide_eq_true_iff, String.lt_iff_toList_lt]
  exact cmpChars_lt_iff s.data t.data

theorem strLt_false_iff_le (s t : String) : strLt t s = false ↔ s ≤ t := by
  rw [← not_lt]
  constructor
  · intro h hh
    rw [← strLt_iff_lt t s, h] at hh
    exact absurd hh (by simp)
  · intro h
    cases hv : strLt t s
    · rfl
    · exact absurd ((strLt_iff_lt t s).mp hv) h

/-! ### The version sort of `Versions.UnmarshalJSON` -/

theorem cmpVer_symm : CmpSymm cmpVer :=
  cmpThen_symm (cmpOn_symm semverCompare_symm Version.version)
    (cmpOn_symm (cmpLexList_symm (cmpLin_symm (α := Char))) fun v => v.version.data)

theorem cmpVer_letrans : CmpLETrans cmpVer :=
  cmpThen_letrans (cmpOn_symm semverCompare_symm Version.version)
    (cmpOn_letrans semverCompare_letrans Version.version)
    (cmpOn_symm (cmpLexList_symm (cmpLin_symm (α := Char))) fun v => v.version.data)
    (cmpOn_letrans (cmpLexList_letrans (cmpLin_symm (α := Char)) (cmpLin_letrans (α := Char)))
      fun v => v.version.data)

theorem versionLess_eq_lt (vi vj : Version) :
    versionLess vi vj = true ↔ cmpVer vi vj = .lt := by
  unfold versionLess cmpVer
  cases semverCompare vi.version vj.version with
  | lt => simp [Ordering.then]
  | gt => simp [Ordering.then]
  | eq => simp [Ordering.then, strLt]

theorem versionLess_false_iff (vi vj : Version) :
    versionLess vj vi = false ↔ cmpVer vi vj ≠ .gt := by
  constructor
  · intro h hgt
    have : cmpVer vj vi = .lt := by
      rw [cmpSymm_lt_iff cmpVer_symm]
      exact hgt
    rw [(versionLess_eq_lt vj vi).mpr this] at h
    exact absurd h (by simp)
  · intro h
    cases hv : versionLess vj vi
    · rfl
    · exact absurd ((cmpSymm_lt_iff cmpVer_symm).mp ((versionLess_eq_lt vj vi).mp hv)) h

theorem versionRel_trans :
    ∀ a b c : Version, versionLess b a = false → versionLess c b = false →
      versionLess c a = false := by
  intro a b c hab hbc
  rw [versionLess_false_iff] at *
  exact cmpVer_letrans a b c hab hbc

theorem versionRel_total :
    ∀ a b : Version, versionLess b a = false ∨ versionLess a b = false := by
  intro a b
  rw [versionLess_false_iff, versionLess_false_iff]
  exact cmp_total cmpVer_symm a b

theorem unmarshalVersions_sorted (entries : List Version) :
    (unmarshalVersions entries).Pairwise (fun a b => versionLess b a = false) := by
  haveI : IsTotal Version (fun a b => versionLess b a = false) := ⟨versionRel_total⟩
  haveI : IsTrans Version (fun a b => versionLess b a = false) :=
    ⟨fun a b c => versionRel_trans a b c⟩
  exact List.sorted_insertionSort _ _

theorem unmarshalVersions_perm (entries : List Version) :
    List.Perm (unmarshalVersions entries) (entries.map normalizeVersionEntry) :=
  List.perm_insertionSort _ _

/-! ### The escape round-trip -/

theorem escapeChars_at (r : List Char) :
    escapeChars ('@' :: r) = '_' :: '_' :: '_' :: escapeChars r := rfl

theorem unescapeChars_three (r : List Char) :
    unescapeChars ('_' :: '_' :: '_' :: r) = '@' :: unescapeChars r := rfl

theorem escapeChars_cons_ne {c : Char} (r : List Char) (hc : c ≠ '@') :
    escapeChars (c :: r) = c :: escapeChars r := by
  rw [escapeChars.eq_def]
  split
  all_goals simp_all

theorem unescapeChars_cons_ne {c : Char} (r : List Char) (hc : c ≠ '_') :
    unescapeChars (c :: r) = c :: unescapeChars r := by
  rw [unescapeChars.eq_def]
  split
  all_goals simp_all

theorem unescapeChars_underscore (t : List Char) (h : t.take 2 ≠ ['_', '_']) :
    unescapeChars ('_' :: t) = '_' :: unescapeChars t := by
  rw [unescapeChars.eq_def]
  split
  all_goals try simp_all
  all_goals (rename_i heq; exact heq.1.symm)

theorem goodName_cons_iff (c : Char) (r : List Char) :
    goodName (c :: r) = true ↔ badHead (c :: r) = false ∧ goodName r = true := by
  simp [goodName]

theorem badHead_false_at {c : Char} {r : List Char} (h : badHead ('_' :: c :: r) = false) :
    c ≠ '@' := by
  intro hh
  subst hh
  simp [badHead] at h

theorem badHead_false_uu {c : Char} {r : List Char}
    (h : badHead ('_' :: '_' :: c :: r) = false) : c ≠ '_' := by
  intro hh
  subst hh
  simp [badHead] at h

theorem unescape_escapeChars (l : List Char) (hg : goodName l = true) :
    unescapeChars (escapeChars l) = l := by
  suffices H : ∀ n (l : List Char), l.length ≤ n → goodName l = true →
      unescapeChars (escapeChars l) = l from H l.length l le_rfl hg
  intro n
  induction n with
  | zero =>
    intro l hl _
    rw [List.length_eq_zero.mp (Nat.le_zero.mp hl)]
    rfl
  | succ n ih =>
    intro l hl hg
    cases l with
    | nil => rfl
    | cons c r =>
      obtain ⟨hb, hgr⟩ := (goodName_cons_iff c r).mp hg
      simp only [List.length_cons, Nat.add_le_add_iff_right] at hl
      by_cases hca : c = '@'
      · subst hca
        rw [escapeChars_at, unescapeChars_three, ih r hl hgr]
      · by_cases hcu : c = '_'
        · subst hcu
          cases r with
          | nil => rfl
          | cons c₂ r₂ =>
            have hc₂at : c₂ ≠ '@' := badHead_false_at hb
            by_cases hc₂u : c₂ = '_'
            · subst hc₂u
              obtain ⟨hb₂, hgr₂⟩ := (goodName_cons_iff _ _).mp hgr
              cases r₂ with
              | nil => rfl
              | cons c₃ r₃ =>
                have hc₃u : c₃ ≠ '_' := badHead_false_uu hb
                have hc₃a : c₃ ≠ '@' := badHead_false_at hb₂
                obtain ⟨_, hgr₃⟩ := (goodName_cons_iff _ _).mp hgr₂
                have hund : ('_' : Char) ≠ '@' := by decide
                rw [escapeChars_cons_ne _ hund, escapeChars_cons_ne _ hund,
                  escapeChars_cons_ne _ hc₃a,
                  unescapeChars_underscore _ (by simp [hc₃u]),
                  unescapeChars_underscore _ (by simp [hc₃u]),
                  unescapeChars_cons_ne _ hc₃u]
                have hlen : r₃.length ≤ n := by
                  simp only [List.length_cons] at hl
                  omega
                rw [ih r₃ hlen hgr₃]
            · have hund : ('_' : Char) ≠ '@' := by decide
              rw [escapeChars_cons_ne _ hund, escapeChars_cons_ne _ hc₂at,
                unescapeChars_underscore _ (by simp [hc₂u]),
                ← escapeChars_cons_ne r₂ hc₂at,
                ih (c₂ :: r₂) hl hgr]
        · rw [escapeChars_cons_ne _ hca, unescapeChars_cons_ne _ hcu, ih r hl hgr]

/-! ## Claims -/

/-- C6: `normalizeSemver` is idempotent — it prepends the `v` comparability
marker when the string does not already start with it and passes a string
already carrying the marker through unchanged, so a second application
changes nothing. -/
theorem claim_C6_normalize_idempotent (s : String) :
    normalizeSemver (normalizeSemver s) = normalizeSemver s ∧
    ("v".data.isPrefixOf s.data = true → normalizeSemver s = s) ∧
    ("v".data.isPrefixOf s.data = false → normalizeSemver s = "v" ++ s) := by
  refine ⟨?_, ?_, ?_⟩
  · unfold normalizeSemver
    by_cases h : "v".data.isPrefixOf s.data
    · simp [h]
    · rw [if_neg h, if_pos]
      rw [String.data_append]
      simp [List.isPrefixOf]
  · intro h
    unfold normalizeSemver
    simp [h]
  · intro h
    unfold normalizeSemver
    simp [h]

/-- C6 witness: concrete instances of the idempotence and of both marker
behaviors. -/
theorem claim_C6_witness :
    normalizeSemver (normalizeSemver "3.3.3") = normalizeSemver "3.3.3" ∧
    normalizeSemver "3.3.3" = "v" ++ "3.3.3" ∧
    normalizeSemver "v3.3.3" = "v3.3.3" :=
  ⟨(claim_C6_normalize_idempotent "3.3.3").1,
    (claim_C6_normalize_idempotent "3.3.3").2.2 (by decide),
    (claim_C6_normalize_idempotent "v3.3.3").2.1 (by decide)⟩

/-- C9: when the upstream registry body is empty, the decoder reports
end-of-file, which `FetchPackage` converts to a non-error: the result is
success carrying the zero-value package — empty name, no versions, empty
latest tag. -/
theorem claim_C9_empty_body_zero_package :
    FetchPackage (.resp .emptyBody) = .ok zeroNpmPackage ∧
    zeroNpmPackage.name = "" ∧ zeroNpmPackage.versions = [] ∧
    zeroNpmPackage.distTags.latest = "" :=
  ⟨rfl, rfl, rfl, rfl⟩

/-- C10: the separator between the version capture and the operation
suffix in the route patterns is an unescaped regular-expression dot
matching any character: request paths whose final segment ends in
`Xinfo`, `Xmod` and `Xzip` — not a literal `.info`/`.mod`/`.zip` — are
still dispatched to the info, manifest and archive operations, the `X`
consumed as the separator and `v1.0.0` extracted as the version. -/
theorem claim_C10_dot_matches_any_char :
    serveRoute "/gohugo.io/npmjs/foo/@v/v1.0.0Xinfo" =
      some (.infoRoute, "gohugo.io/npmjs/foo", "v1.0.0") ∧
    serveRoute "/gohugo.io/npmjs/foo/@v/v1.0.0Xmod" =
      some (.modRoute, "gohugo.io/npmjs/foo", "v1.0.0") ∧
    serveRoute "/gohugo.io/npmjs/foo/@v/v1.0.0Xzip" =
      some (.zipRoute, "gohugo.io/npmjs/foo", "v1.0.0") ∧
    serveRoute "/gohugo.io/npmjs/foo/@v/v1.0.0.info" =
      some (.infoRoute, "gohugo.io/npmjs/foo", "v1.0.0") := by
  refine ⟨by decide, by decide, by decide, by decide⟩

/-- C3 counterexample: the escape round-trip is not the identity on every
valid name — `"@s/a___b"` (a scoped name whose package part contains the
escape marker `___`) unescapes to `"@s/a@b"`.  The code never recovers a
name containing the marker, so escape/unescape is not a bijection on all
valid names. -/
theorem claim_C3_counterexample :
    UnEscapePackage (EscapePackage "@s/a___b") = "@s/a@b" ∧
    ("@s/a@b" : String) ≠ "@s/a___b" := by
  refine ⟨by decide, by decide⟩

/-- C3 amended: the round-trip `UnEscapePackage (EscapePackage x) = x`
holds for every name that contains neither three consecutive underscores
nor an underscore immediately followed by the scope marker `@`; ordinary
scoped names satisfy this. -/
theorem claim_C3_roundtrip_amended (p : String) (h : goodName p.data = true) :
    UnEscapePackage (EscapePackage p) = p :=
  congrArg String.mk (unescape_escapeChars p.data h)

/-- C3 witness: the round-trip on the scoped name `"@vue/reactivity"`. -/
theorem claim_C3_witness :
    goodName "@vue/reactivity".data = true ∧
    UnEscapePackage (EscapePackage "@vue/reactivity") = "@vue/reactivity" :=
  ⟨by decide, claim_C3_roundtrip_amended "@vue/reactivity" (by decide)⟩

/-- C1 counterexample: on a checksum mismatch `downloadTarball` does fail
with the mismatch error, but the partially written destination file is not
deleted — it still holds the downloaded bytes when the function returns
(no branch of `downloadTarball`, `CreateZipFromVersion` or the `Zip`
handler's error path removes it). -/
theorem claim_C1_counterexample :
    (downloadTarball (fun _ => "deadbeef") ⟨"0", "u"⟩ (.resp 200 [1, 2, 3])).1 =
      .error .shasumMismatch ∧
    (downloadTarball (fun _ => "deadbeef") ⟨"0", "u"⟩ (.resp 200 [1, 2, 3])).2 =
      some [1, 2, 3] := by
  refine ⟨by decide, by decide⟩

/-- C1 amended: every download whose computed digest differs from the
declared checksum makes `downloadTarball` return the checksum-mismatch
failure rather than success, and no trusted output is served — the `Zip`
pipeline answers with a 500 — but the partially written destination file
is left in the staging directory with the downloaded bytes rather than
deleted. -/
theorem claim_C1_mismatch_amended (hash : List Nat → String) (npmv : Version)
    (body : List Nat) (repackOk : Bool) (hmis : hash body ≠ npmv.dist.shaSum) :
    (downloadTarball hash npmv.dist (.resp 200 body)).1 = .error .shasumMismatch ∧
    (downloadTarball hash npmv.dist (.resp 200 body)).2 = some body ∧
    zipHandler (.ok npmv) hash (.resp 200 body) repackOk = ⟨false, true, true⟩ := by
  have hdl : downloadTarball hash npmv.dist (.resp 200 body) =
      (.error .shasumMismatch, some body) := by
    unfold downloadTarball
    simp [hmis]
  refine ⟨by rw [hdl], by rw [hdl], ?_⟩
  simp only [zipHandler, hdl]

/-- C1 witness: the amended statement at a concrete mismatching download. -/
theorem claim_C1_witness :
    (fun _ => "deadbeef") [1, 2, 3] ≠ (Dist.mk "0" "u").shaSum ∧
    (downloadTarball (fun _ => "deadbeef") ⟨"0", "u"⟩ (.resp 200 [1, 2, 3])).1 =
      .error .shasumMismatch ∧
    zipHandler (.ok ⟨"p", "v1.0.0", [], ⟨"0", "u"⟩⟩) (fun _ => "deadbeef")
      (.resp 200 [1, 2, 3]) true = ⟨false, true, true⟩ :=
  ⟨by decide,
    (claim_C1_mismatch_amended (fun _ => "deadbeef") ⟨"p", "v1.0.0", [], ⟨"0", "u"⟩⟩
      [1, 2, 3] true (by decide)).1,
    (claim_C1_mismatch_amended (fun _ => "deadbeef") ⟨"p", "v1.0.0", [], ⟨"0", "u"⟩⟩
      [1, 2, 3] true (by decide)).2.2⟩

/-- C7: evaluation at the failing input.  An archive request whose tarball
download fails the checksum check ends in a 500 error with the staging
temporary directory still existing (`CreateZipFromVersion` returns early
without removing it and the handler's `os.RemoveAll` defer is registered
only after success); the same holds when the repack step fails.  Only the
success path removes the directory. -/
theorem claim_C7_staging_dir_leak :
    zipHandler (.ok ⟨"p", "v1.0.0", [], ⟨"0", "u"⟩⟩) (fun _ => "deadbeef")
      (.resp 200 [1, 2, 3]) true = ⟨false, true, true⟩ ∧
    zipHandler (.ok ⟨"p", "v1.0.0", [], ⟨"cafe", "u"⟩⟩) (fun _ => "cafe")
      (.resp 200 [1, 2, 3]) false = ⟨false, true, true⟩ ∧
    zipHandler (.ok ⟨"p", "v1.0.0", [], ⟨"cafe", "u"⟩⟩) (fun _ => "cafe")
      (.resp 200 [1, 2, 3]) true = ⟨true, false, false⟩ := by
  refine ⟨by decide, by decide, by decide⟩

/-- C5 counterexample: a request for a version missing from an existing
package and the same request against an upstream that does not know the
package at all produce the *identical* error value — `FetchPackage`
never checks the upstream status code, decodes the 404 error body into
the zero-value package, and the version lookup then fails the same way.
The two situations are not distinguishable. -/
theorem claim_C5_counterexample :
    fetchPackageVersionFrom
        [("alpinejs", ⟨"alpinejs", ⟨"v1.0.0"⟩, [⟨"alpinejs", "v1.0.0", [], ⟨"s", "t"⟩⟩]⟩)]
        "alpinejs" "v99.0.0" =
      fetchPackageVersionFrom [] "alpinejs" "v99.0.0" ∧
    fetchPackageVersionFrom [] "alpinejs" "v99.0.0" =
      .error (.versionNotFound "v99.0.0" "alpinejs") := by
  refine ⟨by decide, by decide⟩

/-- C5 amended: `FetchPackageVersion` looks the version up by exact
normalized-version string match and, when the package exists but the
version does not, returns the version-not-found error, which is
distinguishable from an upstream-unreachable transport error; it is
however *not* distinguishable from a request against a nonexistent
package name, which produces the very same error value. -/
theorem claim_C5_version_lookup_amended (upstream upstream₂ : List (String × NpmPackage))
    (pack version : String) (p : NpmPackage)
    (hp : upstream.lookup pack = some p)
    (hmiss : (byVersion p.versions version).2 = false)
    (habs : upstream₂.lookup pack = none) :
    fetchPackageVersionFrom upstream pack version =
      .error (.versionNotFound version pack) ∧
    fetchPackageVersionFrom upstream₂ pack version =
      .error (.versionNotFound version pack) ∧
    FetchPackageVersion .unreachable pack version = .error .httpError := by
  refine ⟨?_, ?_, rfl⟩
  · cases hbv : byVersion p.versions version with
    | mk npmv found =>
      have hf : found = false := by
        rw [hbv] at hmiss
        exact hmiss
      subst hf
      simp [fetchPackageVersionFrom, registryFor, hp, FetchPackageVersion, FetchPackage,
        decodeNpmBody, hbv]
  · simp [fetchPackageVersionFrom, registryFor, habs, FetchPackageVersion, FetchPackage,
      decodeNpmBody, zeroNpmPackage, byVersion, byVersionAux]

/-- C5 witness: the amended statement at the concrete scenario of the
spec — requesting `"v99.0.0"` of `"alpinejs"`. -/
theorem claim_C5_witness :
    fetchPackageVersionFrom
        [("alpinejs", ⟨"alpinejs", ⟨"v1.0.0"⟩, [⟨"alpinejs", "v1.0.0", [], ⟨"s", "t"⟩⟩]⟩)]
        "alpinejs" "v99.0.0" = .error (.versionNotFound "v99.0.0" "alpinejs") ∧
    fetchPackageVersionFrom [] "alpinejs" "v99.0.0" =
      .error (.versionNotFound "v99.0.0" "alpinejs") ∧
    FetchPackageVersion .unreachable "alpinejs" "v99.0.0" = .error .httpError :=
  claim_C5_version_lookup_amended
    [("alpinejs", ⟨"alpinejs", ⟨"v1.0.0"⟩, [⟨"alpinejs", "v1.0.0", [], ⟨"s", "t"⟩⟩]⟩)] []
    "alpinejs" "v99.0.0" ⟨"alpinejs", ⟨"v1.0.0"⟩, [⟨"alpinejs", "v1.0.0", [], ⟨"s", "t"⟩⟩]⟩
    (by decide) (by decide) (by decide)

/-! ### Support for C4 -/

theorem escapeChars_eq_nil_iff (l : List Char) : escapeChars l = [] ↔ l = [] := by
  cases l with
  | nil => simp [escapeChars]
  | cons c r =>
    constructor
    · intro h
      by_cases hc : c = '@'
      · subst hc
        rw [escapeChars_at] at h
        exact absurd h (by simp)
      · rw [escapeChars_cons_ne _ hc] at h
        exact absurd h (by simp)
    · intro h
      exact absurd h (by simp)

theorem EscapePackage_ne_empty {p : String} (h : p ≠ "") : EscapePackage p ≠ "" := by
  intro hh
  apply h
  rw [String.ext_iff] at hh ⊢
  exact (escapeChars_eq_nil_iff p.data).mp hh

theorem append_ne_empty_left {a b : String} (h : a ≠ "") : a ++ b ≠ "" := by
  intro hh
  apply h
  rw [String.ext_iff] at hh ⊢
  rw [String.data_append] at hh
  exact (List.append_eq_nil.mp hh).1

theorem splitSlash_ne_nil (l : List Char) : splitSlash l ≠ [] := by
  rw [splitSlash.eq_def]
  split
  · simp
  · simp
  · split <;> simp

theorem splitSlash_slash (r : List Char) : splitSlash ('/' :: r) = [] :: splitSlash r := rfl

theorem splitSlash_cons_ne {c : Char} (r : List Char) (hc : c ≠ '/') {s : List Char}
    {ss : List (List Char)} (hr : splitSlash r = s :: ss) :
    splitSlash (c :: r) = (c :: s) :: ss := by
  rw [splitSlash.eq_def]
  split
  all_goals simp_all

theorem splitSlash_exists (r : List Char) : ∃ s ss, splitSlash r = s :: ss := by
  cases hsr : splitSlash r with
  | nil => exact absurd hsr (splitSlash_ne_nil r)
  | cons a b => exact ⟨a, b, rfl⟩

theorem splitSlash_append (l₁ l₂ : List Char) :
    splitSlash (l₁ ++ '/' :: l₂) = splitSlash l₁ ++ splitSlash l₂ := by
  induction l₁ with
  | nil =>
    rw [List.nil_append, splitSlash_slash]
    rfl
  | cons c r ih =>
    by_cases hc : c = '/'
    · subst hc
      rw [List.cons_append, splitSlash_slash, splitSlash_slash, ih, List.cons_append]
    · obtain ⟨s, ss, hr⟩ := splitSlash_exists r
      have h₂ : splitSlash (r ++ '/' :: l₂) = s :: (ss ++ splitSlash l₂) := by
        rw [ih, hr, List.cons_append]
      rw [List.cons_append, splitSlash_cons_ne _ hc h₂, splitSlash_cons_ne _ hc hr,
        List.cons_append]

theorem joinSlash_splitSlash (l : List Char) : joinSlash (splitSlash l) = l := by
  induction l with
  | nil => rfl
  | cons c r ih =>
    by_cases hc : c = '/'
    · subst hc
      obtain ⟨s, ss, hr⟩ := splitSlash_exists r
      have hjr : joinSlash (s :: ss) = r := by
        rw [← hr]
        exact ih
      rw [splitSlash_slash, hr, joinSlash, List.nil_append, if_neg (by simp), hjr]
    · obtain ⟨s, ss, hr⟩ := splitSlash_exists r
      have hjr : joinSlash (s :: ss) = r := by
        rw [← hr]
        exact ih
      rw [splitSlash_cons_ne _ hc hr, joinSlash, List.cons_append]
      rw [joinSlash] at hjr
      rw [hjr]

theorem splitSlash_no_slash (l : List Char) (h : ∀ c ∈ l, c ≠ '/') :
    splitSlash l = [l] := by
  induction l with
  | nil => rfl
  | cons c r ih =>
    have hc : c ≠ '/' := h c (by simp)
    have hr := ih fun d hd => h d (by simp [hd])
    rw [splitSlash_cons_ne _ hc hr]

theorem cleanElems_cons (rooted : Bool) (stack : List (List Char)) (seg : List Char)
    (rest : List (List Char)) :
    cleanElems rooted stack (seg :: rest) =
      if seg = [] ∨ seg = ['.'] then cleanElems rooted stack rest
      else if seg = ['.', '.'] then
        match stack with
        | [] =>
          if rooted then cleanElems rooted [] rest
          else cleanElems rooted [['.', '.']] rest
        | top :: stack' =>
          if top = ['.', '.'] then cleanElems rooted (seg :: stack) rest
          else cleanElems rooted stack' rest
      else cleanElems rooted (seg :: stack) rest := rfl

theorem cleanElems_dots_nil (rooted : Bool) (rest : List (List Char)) :
    cleanElems rooted [] (['.', '.'] :: rest) =
      if rooted then cleanElems rooted [] rest else cleanElems rooted [['.', '.']] rest := rfl

theorem cleanElems_dots_cons (rooted : Bool) (top : List Char)
    (stack' rest : List (List Char)) :
    cleanElems rooted (top :: stack') (['.', '.'] :: rest) =
      if top = ['.', '.'] then cleanElems rooted (['.', '.'] :: top :: stack') rest
      else cleanElems rooted stack' rest := rfl

theorem cleanElems_good (rooted : Bool) (acc segs : List (List Char))
    (h : segs.all goodSeg = true) : cleanElems rooted acc segs = segs.reverse ++ acc := by
  induction segs generalizing acc with
  | nil => simp [cleanElems]
  | cons seg rest ih =>
    rw [List.all_cons, Bool.and_eq_true] at h
    have hg := of_decide_eq_true h.1
    rw [cleanElems_cons, if_neg (by push_neg; exact ⟨hg.1, hg.2.1⟩), if_neg hg.2.2, ih _ h.2,
      List.reverse_cons, List.append_assoc, List.singleton_append]

theorem cleanElems_append (rooted : Bool) (acc xs ys : List (List Char)) :
    cleanElems rooted acc (xs ++ ys) = cleanElems rooted (cleanElems rooted acc xs) ys := by
  induction xs generalizing acc with
  | nil => rfl
  | cons x xs' ih =>
    rw [List.cons_append]
    by_cases h₁ : x = [] ∨ x = ['.']
    · rw [cleanElems_cons, if_pos h₁, cleanElems_cons, if_pos h₁, ih]
    · by_cases h₂ : x = ['.', '.']
      · subst h₂
        cases acc with
        | nil =>
          rw [cleanElems_dots_nil, cleanElems_dots_nil]
          cases rooted with
          | false =>
            rw [if_neg (by simp), if_neg (by simp)]
            exact ih _
          | true =>
            rw [if_pos rfl, if_pos rfl]
            exact ih _
        | cons top stack' =>
          rw [cleanElems_dots_cons, cleanElems_dots_cons]
          by_cases ht : top = ['.', '.']
          · rw [if_pos ht, if_pos ht, ih]
          · rw [if_neg ht, if_neg ht, ih]
      · rw [cleanElems_cons, if_neg h₁, if_neg h₂, cleanElems_cons, if_neg h₁, if_neg h₂, ih]

theorem goodSegs_head_ne_slash {c : Char} {r : List Char}
    (hsegs : (splitSlash (c :: r)).all goodSeg = true) : c ≠ '/' := by
  intro hc
  subst hc
  rw [splitSlash_slash, List.all_cons] at hsegs
  simp [goodSeg] at hsegs

theorem pathClean_of_good (l : List Char) (hne : l ≠ [])
    (hsegs : (splitSlash l).all goodSeg = true) :
    pathClean (String.mk l) = String.mk l := by
  have hmk : String.mk l ≠ "" := fun hh => hne (String.ext_iff.mp hh)
  have hroot : decide ((String.mk l).data.headD ' ' = '/') = false := by
    cases l with
    | nil => exact absurd rfl hne
    | cons c r => simpa using goodSegs_head_ne_slash hsegs
  rw [pathClean, if_neg hmk]
  simp only [hroot, Bool.false_eq_true, if_false]
  rw [cleanElems_good false [] _ hsegs, List.append_nil, List.reverse_reverse,
    joinSlash_splitSlash]
  rw [if_neg (by simpa using hne)]

theorem pathClean_trailing (l : List Char) (hne : l ≠ [])
    (hsegs : (splitSlash l).all goodSeg = true) :
    pathClean (String.mk (l ++ ['/'])) = String.mk l := by
  have hlt : l ++ ['/'] ≠ [] := by simp
  have hmk : String.mk (l ++ ['/']) ≠ "" := fun hh => hlt (String.ext_iff.mp hh)
  have hsplit : splitSlash (l ++ ['/']) = splitSlash l ++ [[]] := by
    have h := splitSlash_append l []
    simpa using h
  have hroot : decide ((String.mk (l ++ ['/'])).data.headD ' ' = '/') = false := by
    cases l with
    | nil => exact absurd rfl hne
    | cons c r => simpa using goodSegs_head_ne_slash hsegs
  rw [pathClean, if_neg hmk]
  simp only [hroot, Bool.false_eq_true, if_false]
  rw [hsplit, cleanElems_append, cleanElems_good false [] _ hsegs, List.append_nil]
  rw [show cleanElems false (splitSlash l).reverse [[]] = (splitSlash l).reverse from by
    rw [cleanElems_cons, if_pos (Or.inl rfl)]
    rfl]
  rw [List.reverse_reverse, joinSlash_splitSlash]
  rw [if_neg (by simpa using hne)]

theorem parseIntCh_cons (c : Char) (cs : List Char) :
    parseIntCh (c :: cs) =
      if isDigitCh c then
        if c = '0' && decide (((c :: cs).takeWhile isDigitCh).length ≠ 1) then none
        else some ((c :: cs).takeWhile isDigitCh, (c :: cs).dropWhile isDigitCh)
      else none := rfl

theorem parseIntCh_digits {v t r : List Char} (h : parseIntCh v = some (t, r)) :
    t.all isDigitCh = true := by
  match v with
  | [] => exact absurd h (by simp [parseIntCh])
  | c :: cs =>
    rw [parseIntCh_cons] at h
    split at h
    · split at h
      · exact absurd h (by simp)
      · rw [Option.some.injEq, Prod.mk.injEq] at h
        rw [← h.1]
        exact List.all_takeWhile
    · exact absurd h (by simp)

theorem parseSemver_major_digits {v : List Char} {p : SemParsed}
    (h : parseSemver v = some p) : p.major.all isDigitCh = true := by
  unfold parseSemver at h
  split at h
  · split at h
    · exact absurd h (by simp)
    · rename_i maj r₁ hint
      have hd := parseIntCh_digits hint
      suffices hpm : p.major = maj by
        rw [hpm]
        exact hd
      repeat'
        first
          | (split at h)
          | (simp only [] at h)
      all_goals
        first
          | exact Option.noConfusion h
          | (rw [Option.some.injEq] at h
             rw [← h])
  · exact absurd h (by simp)

theorem isDigitCh_ne_slash {c : Char} (h : isDigitCh c = true) : c ≠ '/' := by
  intro hh
  subst hh
  exact absurd h (by decide)

/-- C4: for a repacked `PackageVersion` with a parseable version and a
package name whose path-safe (escaped) form is a clean relative path
(nonempty `/`-separated elements, none of them `.` or `..`, so that
`path.Clean` inside `path.Join` leaves it untouched — every real npm name
qualifies), the major-version suffix is empty exactly when the major
component is `1`; otherwise the module path is the base path, the escaped
package name, and then the literal major component as a `/vN` suffix. -/
theorem claim_C4_major_suffix (ver : Version) (p : SemParsed)
    (hp : parseSemver ver.version.data = some p)
    (hclean : (splitSlash (EscapePackage ver.name).data).all goodSeg = true) :
    (repackMajor ver.version = "" ↔ p.major = ['1']) ∧
    (p.major = ['1'] →
      repackModulePath ver = ModPathBase ++ "/" ++ EscapePackage ver.name) ∧
    (p.major ≠ ['1'] →
      repackModulePath ver =
        ModPathBase ++ "/" ++ EscapePackage ver.name ++ "/" ++ String.mk ('v' :: p.major) ∧
      semverMajor ver.version = String.mk ('v' :: p.major)) := by
  have hmaj : semverMajor ver.version = String.mk ('v' :: p.major) := by
    unfold semverMajor
    rw [hp]
  have hv1 : (String.mk ('v' :: p.major) = "v1") ↔ p.major = ['1'] := by
    rw [String.ext_iff]
    rw [show (String.mk ('v' :: p.major)).data = 'v' :: p.major from rfl,
      show ("v1" : String).data = ['v', '1'] from rfl]
    simp
  have hbuf : ∀ m : String,
      [ModPathBase, EscapePackage ver.name, m].foldl joinBufStep [] =
        (ModPathBase.data ++ '/' :: (EscapePackage ver.name).data) ++ '/' :: m.data := by
    intro m
    show joinBufStep (joinBufStep (joinBufStep [] ModPathBase) (EscapePackage ver.name)) m = _
    rw [show joinBufStep [] ModPathBase = ModPathBase.data by decide]
    rw [show joinBufStep ModPathBase.data (EscapePackage ver.name) =
        ModPathBase.data ++ '/' :: (EscapePackage ver.name).data by
      unfold joinBufStep
      rw [if_neg (by simp [ModPathBase]), if_neg (by simp [ModPathBase])]
      simp]
    unfold joinBufStep
    rw [if_neg (by simp [ModPathBase]), if_neg (by simp [ModPathBase])]
    simp
  have hinner_ne : ModPathBase.data ++ '/' :: (EscapePackage ver.name).data ≠ [] := by
    simp [ModPathBase]
  have hsegsInner :
      (splitSlash (ModPathBase.data ++ '/' :: (EscapePackage ver.name).data)).all goodSeg =
        true := by
    rw [splitSlash_append, List.all_append, hclean]
    rw [show (splitSlash ModPathBase.data).all goodSeg = true by decide]
    rfl
  refine ⟨?_, ?_, ?_⟩
  · unfold repackMajor
    rw [hmaj]
    constructor
    · intro h
      by_cases hv : String.mk ('v' :: p.major) = "v1"
      · exact hv1.mp hv
      · rw [if_neg hv] at h
        exact absurd (String.ext_iff.mp h) (by simp)
    · intro h
      rw [if_pos (hv1.mpr h)]
  · intro h
    unfold repackModulePath repackMajor
    rw [hmaj, if_pos (hv1.mpr h)]
    unfold pathJoin
    rw [hbuf ""]
    rw [if_neg (by simp [ModPathBase])]
    rw [show ((ModPathBase.data ++ '/' :: (EscapePackage ver.name).data) ++
        '/' :: ("" : String).data) =
        (ModPathBase.data ++ '/' :: (EscapePackage ver.name).data) ++ ['/'] from rfl]
    rw [pathClean_trailing _ hinner_ne hsegsInner]
    rw [String.ext_iff]
    simp [String.data_append]
  · intro h
    refine ⟨?_, hmaj⟩
    unfold repackModulePath repackMajor
    rw [hmaj, if_neg fun hh => h (hv1.mp hh)]
    unfold pathJoin
    rw [hbuf (String.mk ('v' :: p.major))]
    rw [if_neg (by simp [ModPathBase])]
    have hdig := parseSemver_major_digits hp
    have hmseg : splitSlash ('v' :: p.major) = [('v' :: p.major)] := by
      refine splitSlash_no_slash _ fun c hc => ?_
      rcases List.mem_cons.mp hc with hc | hc
      · subst hc
        decide
      · exact isDigitCh_ne_slash (List.all_eq_true.mp hdig c hc)
    have hsegsFull :
        (splitSlash ((ModPathBase.data ++ '/' :: (EscapePackage ver.name).data) ++
          '/' :: ('v' :: p.major))).all goodSeg = true := by
      rw [splitSlash_append, List.all_append, hsegsInner, hmseg]
      simp [goodSeg]
    rw [show ((ModPathBase.data ++ '/' :: (EscapePackage ver.name).data) ++
        '/' :: (String.mk ('v' :: p.major)).data) =
        (ModPathBase.data ++ '/' :: (EscapePackage ver.name).data) ++
          '/' :: ('v' :: p.major) from rfl]
    rw [pathClean_of_good _ (by simp [ModPathBase]) hsegsFull]
    rw [String.ext_iff]
    simp [String.data_append]

/-- C4 witness: version `v3.3.3` of `"alpinejs"` gets the `/v3` suffix
after the base path and escaped name; a `v1.x` version gets the empty
suffix. -/
theorem claim_C4_witness :
    repackModulePath ⟨"alpinejs", "v3.3.3", [], ⟨"", ""⟩⟩ =
      ModPathBase ++ "/" ++ EscapePackage "alpinejs" ++ "/" ++ String.mk ('v' :: ['3']) ∧
    repackMajor "v1.2.3" = "" :=
  ⟨((claim_C4_major_suffix ⟨"alpinejs", "v3.3.3", [], ⟨"", ""⟩⟩ ⟨['3'], ['3'], ['3'], []⟩
        (by decide) (by decide)).2.2 (by decide)).1,
    (claim_C4_major_suffix ⟨"p", "v1.2.3", [], ⟨"", ""⟩⟩ ⟨['1'], ['2'], ['3'], []⟩
        (by decide) (by decide)).1.mpr rfl⟩

/-! ### Support for C8 -/

theorem depRel_iff (a b : Dependency) :
    (strLt b.name a.name = false) ↔ a.name ≤ b.name :=
  strLt_false_iff_le a.name b.name

/-- C8: the decoded dependency set is sorted lexically ascending by
dependency name and, because the decoded map's keys are unique, the output
is the same list for every iteration order the decoder presents — the
manifest output over the same input is reproducible. -/
theorem claim_C8_dependencies_sorted (e₁ e₂ : List (String × String))
    (hperm : List.Perm e₁ e₂) (hnodup : (e₁.map Prod.fst).Nodup) :
    unmarshalDependencies e₁ = unmarshalDependencies e₂ ∧
    (unmarshalDependencies e₁).Pairwise (fun a b => a.name ≤ b.name) := by
  haveI : IsTotal Dependency (fun a b => strLt b.name a.name = false) :=
    ⟨fun a b => by
      rw [depRel_iff, depRel_iff]
      exact le_total a.name b.name⟩
  haveI : IsTrans Dependency (fun a b => strLt b.name a.name = false) :=
    ⟨fun a b c hab hbc => by
      rw [depRel_iff] at hab hbc ⊢
      exact le_trans hab hbc⟩
  have hs₁ : (unmarshalDependencies e₁).Pairwise
      (fun a b => strLt b.name a.name = false) :=
    List.sorted_insertionSort _ _
  have hs₂ : (unmarshalDependencies e₂).Pairwise
      (fun a b => strLt b.name a.name = false) :=
    List.sorted_insertionSort _ _
  have hp₁ : List.Perm (unmarshalDependencies e₁)
      (e₁.map fun kv => (⟨kv.1, kv.2⟩ : Dependency)) :=
    List.perm_insertionSort _ _
  have hp₂ : List.Perm (unmarshalDependencies e₂)
      (e₂.map fun kv => (⟨kv.1, kv.2⟩ : Dependency)) :=
    List.perm_insertionSort _ _
  have hperm' : List.Perm (unmarshalDependencies e₁) (unmarshalDependencies e₂) :=
    hp₁.trans ((hperm.map _).trans hp₂.symm)
  have hkeyname : ∀ e : List (String × String),
      ((e.map fun kv => (⟨kv.1, kv.2⟩ : Dependency)).map Dependency.name) =
        e.map Prod.fst := by
    intro e
    rw [List.map_map]
    rfl
  have hnames₁ : ((unmarshalDependencies e₁).map Dependency.name).Nodup := by
    have hmp := hp₁.map Dependency.name
    rw [hkeyname] at hmp
    exact hmp.nodup_iff.mpr hnodup
  have hnodup₂ : (e₂.map Prod.fst).Nodup := (hperm.map Prod.fst).nodup_iff.mp hnodup
  have hnames₂ : ((unmarshalDependencies e₂).map Dependency.name).Nodup := by
    have hmp := hp₂.map Dependency.name
    rw [hkeyname] at hmp
    exact hmp.nodup_iff.mpr hnodup₂
  have hstrict : ∀ l : List Dependency,
      l.Pairwise (fun a b => strLt b.name a.name = false) →
      (l.map Dependency.name).Nodup → l.Pairwise (fun a b => a.name < b.name) := by
    intro l hs hn
    have hne : l.Pairwise (fun a b => a.name ≠ b.name) := List.pairwise_map.mp hn
    exact (hs.and hne).imp fun {a b} hh =>
      lt_of_le_of_ne ((depRel_iff a b).mp hh.1) hh.2
  haveI : IsAntisymm Dependency (fun a b => a.name < b.name) :=
    ⟨fun a b h1 h2 => absurd h2 (lt_asymm h1)⟩
  refine ⟨List.eq_of_perm_of_sorted hperm' (hstrict _ hs₁ hnames₁) (hstrict _ hs₂ hnames₂), ?_⟩
  exact hs₁.imp fun {a b} h => (depRel_iff a b).mp h

/-- C8 witness: two iteration orders of the same two-entry dependency map
decode to the same name-sorted list. -/
theorem claim_C8_witness :
    unmarshalDependencies [("b", "1"), ("a", "2")] =
      unmarshalDependencies [("a", "2"), ("b", "1")] ∧
    (unmarshalDependencies [("b", "1"), ("a", "2")]).Pairwise
      (fun a b => a.name ≤ b.name) :=
  claim_C8_dependencies_sorted [("b", "1"), ("a", "2")] [("a", "2"), ("b", "1")]
    (by decide) (by decide)

/-! ### Support for C2 -/

theorem versionLess_false_iff_le (a b : Version) :
    versionLess b a = false ↔
      (semverCompare a.version b.version = .lt ∨
        (semverCompare a.version b.version = .eq ∧ a.version ≤ b.version)) := by
  rw [versionLess_false_iff]
  unfold cmpVer
  rw [then_ne_gt]
  constructor
  · rintro (h | ⟨h1, h2⟩)
    · exact Or.inl h
    · refine Or.inr ⟨h1, ?_⟩
      rcases cmp_ne_gt.mp h2 with hh | hh
      · exact le_of_lt ((strLt_iff_lt a.version b.version).mp (decide_eq_true hh))
      · exact le_of_eq (String.ext ((cmpLexList_eq_iff fun _ _ => cmpLin_eq_iff).mp hh))
  · rintro (h | ⟨h1, h2⟩)
    · exact Or.inl h
    · refine Or.inr ⟨h1, ?_⟩
      rw [cmp_ne_gt]
      rcases lt_or_eq_of_le h2 with hh | hh
      · exact Or.inl (of_decide_eq_true ((strLt_iff_lt a.version b.version).mpr hh))
      · exact Or.inr ((cmpLexList_eq_iff fun _ _ => cmpLin_eq_iff).mpr (by rw [hh]))

/-- C2 counterexample: the code's tie-break among semantically-equal
versions is on the *normalized* strings, not the raw strings — for raw
versions `1.0.0+z` and `v1.0.0+a` (build metadata is ignored by semver
precedence) the code orders them `v1.0.0+a, v1.0.0+z` while the claimed
raw-string tie-break orders them `v1.0.0+z, v1.0.0+a`.  Moreover, when two
distinct records normalize to the *same* version string the result depends
on the decoder's map iteration order, so the order is not deterministic
across iteration orders. -/
theorem claim_C2_counterexample :
    (unmarshalVersions [⟨"p", "1.0.0+z", [], ⟨"", ""⟩⟩, ⟨"p", "v1.0.0+a", [], ⟨"", ""⟩⟩]).map
        (fun v => v.version) = ["v1.0.0+a", "v1.0.0+z"] ∧
    (specSortVersions [⟨"p", "1.0.0+z", [], ⟨"", ""⟩⟩, ⟨"p", "v1.0.0+a", [], ⟨"", ""⟩⟩]).map
        (fun v => v.version) = ["v1.0.0+z", "v1.0.0+a"] ∧
    List.Perm [(⟨"p", "1.0.0", [], ⟨"A", ""⟩⟩ : Version), ⟨"p", "v1.0.0", [], ⟨"B", ""⟩⟩]
      [⟨"p", "v1.0.0", [], ⟨"B", ""⟩⟩, ⟨"p", "1.0.0", [], ⟨"A", ""⟩⟩] ∧
    unmarshalVersions [⟨"p", "1.0.0", [], ⟨"A", ""⟩⟩, ⟨"p", "v1.0.0", [], ⟨"B", ""⟩⟩] ≠
      unmarshalVersions [⟨"p", "v1.0.0", [], ⟨"B", ""⟩⟩, ⟨"p", "1.0.0", [], ⟨"A", ""⟩⟩] := by
  refine ⟨by decide, by decide, by decide, by decide⟩

/-- C2 amended: the version list produced by decoding is sorted ascending
by normalized semantic-version precedence with ties among
semantically-equal versions broken by *normalized*-string lexical order,
and is a permutation of the normalized entries; records whose normalized
version strings fully coincide keep no specified relative order.  The
spec's example holds: versions 1.0.0, 2.0.0, 1.5.0 come out as
v1.0.0, v1.5.0, v2.0.0. -/
theorem claim_C2_version_sort_amended (entries : List Version) :
    (unmarshalVersions entries).Pairwise (fun a b =>
      semverCompare a.version b.version = .lt ∨
        (semverCompare a.version b.version = .eq ∧ a.version ≤ b.version)) ∧
    List.Perm (unmarshalVersions entries) (entries.map normalizeVersionEntry) ∧
    (unmarshalVersions [⟨"p", "1.0.0", [], ⟨"", ""⟩⟩, ⟨"p", "2.0.0", [], ⟨"", ""⟩⟩,
        ⟨"p", "1.5.0", [], ⟨"", ""⟩⟩]).map (fun v => v.version) =
      ["v1.0.0", "v1.5.0", "v2.0.0"] := by
  refine ⟨?_, unmarshalVersions_perm entries, by decide⟩
  exact (unmarshalVersions_sorted entries).imp fun {a b} h =>
    (versionLess_false_iff_le a b).mp h

end NpmGoProxy
